import Mathlib

/-!
Verification development for `smriprep/interfaces/freesurfer.py`.

The file embeds the two pieces of logic of that module:
* `ReconAll.cmdline` — the resume-flag builder: step selection by directive
  (lines 136-163) and the per-step freshness loop (lines 165-193);
* `CALabel._list_outputs` — the probability-map output listing patch
  (lines 240-247).

Machine strings are Lean `String`s; the filesystem is a map from path to
optional modification time (`none` = missing file); the base interface's
step tables (inherited from nipype's `ReconAll`, external to this module)
are kept abstract as record fields.
-/

namespace Smriprep

/-- A recon-all pipeline step: its name, its output file patterns and its
input file patterns, relative to the subject directory.  Mirrors the
`(step, outfiles, infiles)` triples iterated at line 167. -/
structure Step where
  name : String
  outfiles : List String
  infiles : List String
deriving DecidableEq

/-- The step tables the base nipype `ReconAll` class provides
(`self._steps`, `self._autorecon1_steps`, ...).  Their contents are
external to this module, so they are abstract record fields. -/
structure StepTables where
  steps : List Step
  autorecon1 : List Step
  autorecon2_volonly : List Step
  autorecon2_perhemi : List Step
  autorecon2_lh : List Step
  autorecon2_rh : List Step
  autorecon2 : List Step
  autorecon_lh : List Step
  autorecon_rh : List Step
  autorecon3 : List Step
deriving DecidableEq

/-- Python `str.startswith`, on the character list of the string. -/
def startswith (s pre : String) : Bool :=
  pre.toList.isPrefixOf s.toList

/-- Python `str.endswith`. -/
def endswith (s suf : String) : Bool :=
  suf.toList.isSuffixOf s.toList

/-- Bool-valued infix test on lists (used to model Python's `in` on
strings): `x` occurs contiguously inside `l`. -/
def infixOf (x : List Char) : List Char → Bool
  | [] => decide (x = [])
  | a :: l => x.isPrefixOf (a :: l) || infixOf x l

/-- Python's substring containment `sub in s`. -/
def strContains (s sub : String) : Bool :=
  infixOf sub.toList s.toList

/-- Python `os.path.join` for two components. -/
def joinPath (a b : String) : String :=
  if startswith b "/" then b
  else if a = "" then b
  else if endswith a "/" then a ++ b
  else a ++ "/" ++ b

/-- Modelled from the spec: the freshness helper (nipype's `check_depends`,
which is external library code, not part of this repository's sources):
true iff every target exists and is newer than every dependency; any
absent path makes the dependency unmet ("file missing = stale").  The
filesystem is a map from path to modification time, `none` = missing. -/
def check_depends (fs : String → Option Nat) (targets deps : List String) : Bool :=
  targets.all (fun t => (fs t).isSome) &&
    targets.all (fun t => deps.all (fun d =>
      match fs t, fs d with
      | some mt, some md => decide (md < mt)
      | _, _ => false))

/-- The step-selection logic of `ReconAll.cmdline` (lines 136-163):
resolve the directive / explicit step list / hemisphere inputs to one
concrete step sequence.  `none` models an undefined (`Undefined`) trait
value; note that the `autorecon-hemi` branch compares `hemi` to `"lh"`
without a definedness check, exactly as the source does. -/
def selectSteps (T : StepTables) (directive : Option String)
    (stepsIn : Option (List String)) (hemi : Option String) : List Step :=
  match directive with
  | none =>
    match stepsIn with
    | some names => T.steps.filter (fun s => names.contains s.name)
    | none => []
  | some d =>
    if d = "autorecon1" then T.autorecon1
    else if d = "autorecon2-volonly" then T.autorecon2_volonly
    else if d = "autorecon2-perhemi" then T.autorecon2_perhemi
    else if startswith d "autorecon2" then
      match hemi with
      | some h =>
        if h = "lh" then T.autorecon2_volonly ++ T.autorecon2_lh
        else T.autorecon2_volonly ++ T.autorecon2_rh
      | none => T.autorecon2
    else if d = "autorecon-hemi" then
      if hemi = some "lh" then T.autorecon_lh else T.autorecon_rh
    else if d = "autorecon3" then T.autorecon3
    else T.steps

/-- The `-<step>` flag string (line 168). -/
def flagOf (s : Step) : String := "-" ++ s.name

/-- The `-no<step>` flag string (line 169). -/
def noflagOf (s : Step) : String := "-no" ++ s.name

/-- The ambient data of the resume loop: the base command line the flags
are matched against, the subject directory, the filesystem and whether
the explicit `steps` input is defined. -/
structure LoopEnv where
  cmd : String
  subjDir : String
  fs : String → Option Nat
  stepsDefined : Bool

/-- The freshness test of one step (lines 176-180): `check_depends` on the
step's output and input files joined under the subject directory. -/
def stepFresh (env : LoopEnv) (s : Step) : Bool :=
  check_depends env.fs (s.outfiles.map (joinPath env.subjDir))
    (s.infiles.map (joinPath env.subjDir))

/-- One iteration of the resume loop (lines 167-185), transforming the
`(no_run, flags)` accumulator. -/
def processStep (env : LoopEnv) (acc : Bool × List String) (s : Step) :
    Bool × List String :=
  if strContains env.cmd (noflagOf s) then acc
  else if strContains env.cmd (flagOf s) then (false, acc.2)
  else if stepFresh env s then (acc.1, acc.2 ++ [noflagOf s])
  else (false, if env.stepsDefined then acc.2 ++ [flagOf s] else acc.2)

/-- The whole resume loop, starting from `no_run = True`, `flags = []`
(lines 165-185). -/
def processSteps (env : LoopEnv) (steps : List Step) : Bool × List String :=
  steps.foldl (processStep env) (true, [])

/-- The inputs of `ReconAll.cmdline`.  `baseCmd` is the command line built
by the base class plus the expert-file flag (lines 123-127); `resuming`
is `self._is_resuming()`; `genSubjectsDir` is `self._gen_subjects_dir()`;
the remaining fields are the interface inputs, with `none` modelling an
undefined trait. -/
structure ReconAllInputs where
  baseCmd : String
  resuming : Bool
  subjects_dir : Option String
  genSubjectsDir : String
  subject_id : String
  directive : Option String
  steps : Option (List String)
  hemi : Option String
  force_run : Bool
  tables : StepTables
  fs : String → Option Nat

/-- Lines 131-133: the subjects directory, generated when undefined. -/
def subjectsDirOf (i : ReconAllInputs) : String :=
  match i.subjects_dir with
  | some d => d
  | none => i.genSubjectsDir

/-- The loop environment of a `cmdline` invocation (line 176 computes the
subject directory; line 183 tests `isdefined(self.inputs.steps)`). -/
def envOf (i : ReconAllInputs) : LoopEnv :=
  { cmd := i.baseCmd
    subjDir := joinPath (subjectsDirOf i) i.subject_id
    fs := i.fs
    stepsDefined := i.steps.isSome }

/-- The step sequence a `cmdline` invocation resolves (lines 136-163). -/
def resolvedSteps (i : ReconAllInputs) : List Step :=
  selectSteps i.tables i.directive i.steps i.hemi

/-- `ReconAll.cmdline` (lines 122-193): return the base command when not
resuming; otherwise run the resume loop and either return the no-op
placeholder (lines 187-189) or the base command with the computed flags
joined on (line 191). -/
def cmdline (i : ReconAllInputs) : String :=
  if i.resuming = false then i.baseCmd
  else
    let r := processSteps (envOf i) (resolvedSteps i)
    if r.1 && !i.force_run then "echo recon-all: nothing to do"
    else i.baseCmd ++ " " ++ String.intercalate " " r.2

/-- A value of the nipype output listing: a single path or a list of
paths. -/
inductive OutValue where
  | str : String → OutValue
  | strs : List String → OutValue
deriving DecidableEq

/-- Python `f"{i:03d}"`: decimal, zero-padded to width 3. -/
def format03 (i : Nat) : String :=
  let s := toString i
  if s.length < 3 then String.mk (List.replicate (3 - s.length) '0') ++ s else s

/-- Python `os.path.abspath` relative to a working directory (path
normalisation aside). -/
def abspath (cwd p : String) : String :=
  if startswith p "/" then p else joinPath cwd p

/-- `CALabel._list_outputs` (lines 240-247): take the base class's output
listing (a map from key to optional value) and, when `write_probs` is
defined, set the `label_probabilities` key to the three generated
probability-map paths. -/
def listOutputs (base : String → Option OutValue) (cwd : String)
    (write_probs : Option String) : String → Option OutValue :=
  match write_probs with
  | none => base
  | some pfx => fun k =>
      if k = "label_probabilities" then
        some (OutValue.strs ((List.range 3).map
          (fun i => abspath cwd (pfx ++ format03 i ++ ".mgz"))))
      else base k


/-- Whether one loop iteration leaves `no_run` untouched: the step is
skipped because its `-no<step>` flag is already present, or neither flag
is present and the freshness check succeeds. -/
def stepNoRun (env : LoopEnv) (s : Step) : Bool :=
  strContains env.cmd (noflagOf s) ||
    (!strContains env.cmd (flagOf s) && stepFresh env s)

/-- The flag one loop iteration appends for a step, if any. -/
def stepDecision (env : LoopEnv) (s : Step) : Option String :=
  if strContains env.cmd (noflagOf s) then none
  else if strContains env.cmd (flagOf s) then none
  else if stepFresh env s then some (noflagOf s)
  else if env.stepsDefined then some (flagOf s) else none

theorem processStep_eq (env : LoopEnv) (b : Bool) (fl : List String) (s : Step) :
    processStep env (b, fl) s =
      (b && stepNoRun env s, fl ++ (stepDecision env s).toList) := by
  unfold processStep stepNoRun stepDecision
  by_cases h1 : strContains env.cmd (noflagOf s) <;>
    by_cases h2 : strContains env.cmd (flagOf s) <;>
      by_cases h3 : stepFresh env s <;>
        by_cases h4 : env.stepsDefined <;>
          simp [h1, h2, h3, h4]

theorem foldl_processStep_eq (env : LoopEnv) (ss : List Step) :
    ∀ (b : Bool) (fl : List String),
      ss.foldl (processStep env) (b, fl) =
        (b && ss.all (stepNoRun env), fl ++ ss.filterMap (stepDecision env)) := by
  induction ss with
  | nil => intro b fl; simp
  | cons s ss ih =>
    intro b fl
    rw [List.foldl_cons, processStep_eq, ih]
    cases hd : stepDecision env s <;>
      simp [List.filterMap_cons, hd, Bool.and_assoc]

/-- Characterisation of the resume loop: `no_run` is the conjunction of the
per-step no-run tests, and the flag list is the concatenation of the
per-step decisions. -/
theorem processSteps_eq (env : LoopEnv) (ss : List Step) :
    processSteps env ss =
      (ss.all (stepNoRun env), ss.filterMap (stepDecision env)) := by
  unfold processSteps
  rw [foldl_processStep_eq]
  simp

theorem flagOf_ne_noflagOf (s : Step) : flagOf s ≠ noflagOf s := by
  intro h
  have h2 := congrArg String.length h
  rw [flagOf, noflagOf, String.length_append, String.length_append] at h2
  have e1 : ("-" : String).length = 1 := rfl
  have e3 : ("-no" : String).length = 3 := rfl
  rw [e1, e3] at h2
  omega

theorem stepDecision_values (env : LoopEnv) (s : Step) (v : String)
    (h : stepDecision env s = some v) : v = noflagOf s ∨ v = flagOf s := by
  unfold stepDecision at h
  by_cases h1 : strContains env.cmd (noflagOf s) <;>
    by_cases h2 : strContains env.cmd (flagOf s) <;>
      by_cases h3 : stepFresh env s <;>
        by_cases h4 : env.stepsDefined <;>
          simp [h1, h2, h3, h4] at h <;> simp [h]

theorem stepDecision_of_noflag (env : LoopEnv) (s : Step)
    (h : strContains env.cmd (noflagOf s) = true) :
    stepDecision env s = none := by
  simp [stepDecision, h]

theorem processSteps_skip_of_noflag (env : LoopEnv) (pre post : List Step)
    (s : Step) (h : strContains env.cmd (noflagOf s) = true) :
    processSteps env (pre ++ s :: post) = processSteps env (pre ++ post) := by
  rw [processSteps_eq, processSteps_eq]
  have hnr : stepNoRun env s = true := by simp [stepNoRun, h]
  simp [List.all_append, List.filterMap_append, List.filterMap_cons,
    stepDecision_of_noflag env s h, hnr]

theorem processSteps_forced_of_flag (env : LoopEnv) (pre post : List Step)
    (s : Step) (hno : strContains env.cmd (noflagOf s) = false)
    (hfl : strContains env.cmd (flagOf s) = true) :
    (processSteps env (pre ++ s :: post)).1 = false ∧
      (processSteps env (pre ++ s :: post)).2 = (processSteps env (pre ++ post)).2 := by
  rw [processSteps_eq, processSteps_eq]
  have hnr : stepNoRun env s = false := by simp [stepNoRun, hno, hfl]
  have hd : stepDecision env s = none := by simp [stepDecision, hno, hfl]
  simp [List.all_append, List.filterMap_append, List.filterMap_cons, hd, hnr]

theorem infixOf_self_append (x b : List Char) : infixOf x (x ++ b) = true := by
  cases hxb : x ++ b with
  | nil =>
    have hx : x = [] := by
      cases x with
      | nil => rfl
      | cons c t => simp at hxb
    simp [infixOf, hx]
  | cons c t =>
    rw [infixOf, ← hxb]
    have : x.isPrefixOf (x ++ b) = true := by
      rw [ List.isPrefixOf_iff_prefix]
      exact List.prefix_append x b
    simp [this]

theorem infixOf_mid (x b : List Char) :
    ∀ a : List Char, infixOf x (a ++ (x ++ b)) = true := by
  intro a
  induction a with
  | nil => simpa using infixOf_self_append x b
  | cons c a ih =>
    rw [List.cons_append, infixOf, ih]
    simp

/-- If the command decomposes as `a ++ x ++ b` then `x` is contained. -/
theorem strContains_of_decomp (a x b : String) :
    strContains (a ++ x ++ b) x = true := by
  unfold strContains
  have hdata : (a ++ x ++ b).toList = a.toList ++ (x.toList ++ b.toList) := by
    show (a ++ x ++ b).data = a.data ++ (x.data ++ b.data)
    rw [String.data_append, String.data_append, List.append_assoc]
  rw [hdata]
  exact infixOf_mid x.toList b.toList a.toList

/-! Concrete instances used by witnesses and counterexamples. -/

/-- A sample step with one output and one input file. -/
def sTal : Step := ⟨"talairach", ["mri/talairach.xfm"], ["mri/orig.mgz"]⟩

/-- A second sample step. -/
def sMot : Step := ⟨"motioncor", ["mri/orig.mgz"], ["mri/orig/001.mgz"]⟩

/-- Sample step tables with pairwise distinguishable entries. -/
def T0 : StepTables :=
  { steps := [sMot, sTal]
    autorecon1 := [sMot]
    autorecon2_volonly := [⟨"gcareg", ["mri/transforms/talairach.lta"], []⟩]
    autorecon2_perhemi := [⟨"tessellate", ["surf/lh.orig.nofix"], []⟩]
    autorecon2_lh := [⟨"white", ["surf/lh.white"], []⟩]
    autorecon2_rh := [⟨"white", ["surf/rh.white"], []⟩]
    autorecon2 := [⟨"canorm", ["mri/norm.mgz"], []⟩]
    autorecon_lh := [⟨"sphere", ["surf/lh.sphere"], []⟩]
    autorecon_rh := [⟨"sphere", ["surf/rh.sphere"], []⟩]
    autorecon3 := [⟨"cortribbon", ["mri/ribbon.mgz"], []⟩] }

/-- A loop environment whose command already contains `-notalairach`. -/
def envA : LoopEnv :=
  { cmd := "recon-all -all -notalairach -subjid sub01"
    subjDir := "/fs/sub01"
    fs := fun _ => none
    stepsDefined := false }

/-- A loop environment with a fresh `talairach` step: its output is newer
than its input. -/
def envB : LoopEnv :=
  { cmd := "recon-all -all -subjid sub01"
    subjDir := "/fs/sub01"
    fs := fun p =>
      if p = "/fs/sub01/mri/talairach.xfm" then some 10
      else if p = "/fs/sub01/mri/orig.mgz" then some 5
      else none
    stepsDefined := false }

/-- A loop environment whose command contains `-notalairach` only inside a
file path. -/
def envC : LoopEnv :=
  { cmd := "recon-all -i /data/sub-notalairach/T1.nii -all"
    subjDir := "/fs/sub01"
    fs := fun _ => none
    stepsDefined := false }

/-- Inputs for the `autorecon1`, all-outputs-missing scenario. -/
def i0 : ReconAllInputs :=
  { baseCmd := "recon-all -autorecon1 -subjid sub01"
    resuming := true
    subjects_dir := some "/fs"
    genSubjectsDir := "/gen"
    subject_id := "sub01"
    directive := some "autorecon1"
    steps := none
    hemi := none
    force_run := false
    tables := T0
    fs := fun _ => none }

/-- Inputs whose base command already carries `-nomotioncor` for the sole
`autorecon1` step. -/
def i1 : ReconAllInputs :=
  { baseCmd := "recon-all -autorecon1 -nomotioncor -subjid sub01"
    resuming := true
    subjects_dir := some "/fs"
    genSubjectsDir := "/gen"
    subject_id := "sub01"
    directive := some "autorecon1"
    steps := none
    hemi := none
    force_run := false
    tables := T0
    fs := fun _ => none }

/-- A sample base output listing for the labeling tool. -/
def base0 : String → Option OutValue :=
  fun k => if k = "out_file" then some (OutValue.str "/wd/aseg.auto_noCCseg.mgz") else none

/-- C1: for every step of the resolved sequence whose `-<step>`/`-no<step>`
flags are not already in the base command line, the resume loop appends
`-no<step>` when every output file is present and newer than every input
(freshness satisfied), and otherwise appends no `-no<step>` and appends
`-<step>` exactly when the explicit step-list input is set. -/
theorem resume_freshness_decision (env : LoopEnv) (steps : List Step) (s : Step)
    (hs : s ∈ steps)
    (h1 : ∀ t ∈ steps, noflagOf t = noflagOf s → t = s)
    (h2 : ∀ t ∈ steps, flagOf t ≠ noflagOf s)
    (h3 : ∀ t ∈ steps, flagOf t = flagOf s → t = s)
    (h4 : ∀ t ∈ steps, noflagOf t ≠ flagOf s)
    (hno : strContains env.cmd (noflagOf s) = false)
    (hfl : strContains env.cmd (flagOf s) = false) :
    (stepFresh env s = true → noflagOf s ∈ (processSteps env steps).2)
    ∧ (stepFresh env s = false →
        noflagOf s ∉ (processSteps env steps).2
        ∧ (flagOf s ∈ (processSteps env steps).2 ↔ env.stepsDefined = true)) := by
  rw [processSteps_eq]
  constructor
  · intro hfr
    have hd : stepDecision env s = some (noflagOf s) := by
      simp [stepDecision, hno, hfl, hfr]
    exact List.mem_filterMap.mpr ⟨s, hs, hd⟩
  · intro hfr
    have hds : stepDecision env s =
        if env.stepsDefined then some (flagOf s) else none := by
      simp [stepDecision, hno, hfl, hfr]
    refine ⟨?_, ?_, ?_⟩
    · intro hmem
      obtain ⟨t, ht, hdt⟩ := List.mem_filterMap.mp hmem
      rcases stepDecision_values env t _ hdt with hv | hv
      · have hts : t = s := h1 t ht hv.symm
        rw [hts, hds] at hdt
        by_cases hsd : env.stepsDefined
        · rw [if_pos hsd] at hdt
          exact flagOf_ne_noflagOf s (Option.some.inj hdt)
        · rw [if_neg hsd] at hdt
          exact Option.noConfusion hdt
      · exact h2 t ht hv.symm
    · intro hmem
      obtain ⟨t, ht, hdt⟩ := List.mem_filterMap.mp hmem
      rcases stepDecision_values env t _ hdt with hv | hv
      · exact absurd hv.symm (h4 t ht)
      · have hts : t = s := h3 t ht hv.symm
        rw [hts, hds] at hdt
        by_cases hsd : env.stepsDefined
        · exact hsd
        · rw [if_neg hsd] at hdt
          exact Option.noConfusion hdt
    · intro hsd
      have hd : stepDecision env s = some (flagOf s) := by
        rw [hds, if_pos hsd]
      exact List.mem_filterMap.mpr ⟨s, hs, hd⟩

/-- Witness for C1: the fresh `talairach` step gets `-notalairach`
appended. -/
theorem resume_freshness_decision_witness :
    noflagOf sTal ∈ (processSteps envB [sTal]).2 :=
  (resume_freshness_decision envB [sTal] sTal (by decide) (by decide)
    (by decide) (by decide) (by decide) (by decide) (by decide)).1 (by decide)

/-- C2: when resuming without force, if every resolved step either already
has `-no<step>` in the base command, or has no `-<step>` in the base
command and passes the freshness check, then `cmdline` returns the no-op
placeholder command. -/
theorem cmdline_noop_when_nothing_to_do (i : ReconAllInputs)
    (hres : i.resuming = true) (hforce : i.force_run = false)
    (hall : ∀ s ∈ resolvedSteps i,
      strContains i.baseCmd (noflagOf s) = true ∨
        (strContains i.baseCmd (flagOf s) = false ∧ stepFresh (envOf i) s = true)) :
    cmdline i = "echo recon-all: nothing to do" := by
  have hnr : (processSteps (envOf i) (resolvedSteps i)).1 = true := by
    rw [processSteps_eq]
    simp only [List.all_eq_true]
    intro s hsmem
    rcases hall s hsmem with h | ⟨hf, hfr⟩
    · have h' : strContains (envOf i).cmd (noflagOf s) = true := h
      simp [stepNoRun, h']
    · have hf' : strContains (envOf i).cmd (flagOf s) = false := hf
      simp [stepNoRun, hf', hfr]
  simp [cmdline, hres, hforce, hnr]

/-- Witness for C2: with `-nomotioncor` already in the base command for the
single `autorecon1` step, the placeholder is returned. -/
theorem cmdline_noop_when_nothing_to_do_witness :
    cmdline i1 = "echo recon-all: nothing to do" :=
  cmdline_noop_when_nothing_to_do i1 (by decide) (by decide) (by decide)

/-- C3: the step selector follows the fixed rule table: `autorecon1`,
`autorecon2-volonly`, `autorecon2-perhemi` and `autorecon3` give their
fixed tables; any other directive starting with `autorecon2` gives the
volonly steps plus the hemisphere steps when `hemi` is set and the full
autorecon2 table when not; `autorecon-hemi` gives the hemisphere subset;
every other directive gives the full master list, and selection is a
total function (no error for any combination). -/
theorem selectSteps_rule_table (T : StepTables) (st : Option (List String))
    (h : Option String) (hm : String) (d e : String)
    (hd1 : startswith d "autorecon2" = true)
    (hd2 : d ≠ "autorecon2-volonly") (hd3 : d ≠ "autorecon2-perhemi")
    (he1 : startswith e "autorecon2" = false)
    (he2 : e ≠ "autorecon1") (he3 : e ≠ "autorecon-hemi")
    (he4 : e ≠ "autorecon3") :
    selectSteps T (some "autorecon1") st h = T.autorecon1
    ∧ selectSteps T (some "autorecon2-volonly") st h = T.autorecon2_volonly
    ∧ selectSteps T (some "autorecon2-perhemi") st h = T.autorecon2_perhemi
    ∧ selectSteps T (some "autorecon3") st h = T.autorecon3
    ∧ selectSteps T (some d) st (some hm) =
        T.autorecon2_volonly ++
          (if hm = "lh" then T.autorecon2_lh else T.autorecon2_rh)
    ∧ selectSteps T (some d) st none = T.autorecon2
    ∧ selectSteps T (some "autorecon-hemi") st h =
        (if h = some "lh" then T.autorecon_lh else T.autorecon_rh)
    ∧ selectSteps T (some e) st h = T.steps := by
  have hd0 : d ≠ "autorecon1" := by
    rintro rfl; exact absurd hd1 (by decide)
  have he5 : e ≠ "autorecon2-volonly" := by
    rintro rfl; exact absurd he1 (by decide)
  have he6 : e ≠ "autorecon2-perhemi" := by
    rintro rfl; exact absurd he1 (by decide)
  refine ⟨rfl, rfl, rfl, rfl, ?_, ?_, rfl, ?_⟩
  · simp only [selectSteps]
    rw [if_neg hd0, if_neg hd2, if_neg hd3, if_pos hd1]
    by_cases hhm : hm = "lh" <;> simp [hhm]
  · simp only [selectSteps]
    rw [if_neg hd0, if_neg hd2, if_neg hd3, if_pos hd1]
  · simp only [selectSteps]
    rw [if_neg he2, if_neg he5, if_neg he6, if_neg ?hne, if_neg he3, if_neg he4]
    case hne => simp [he1]

/-- Witness for C3 at concrete tables, `d = "autorecon2-cp"`,
`e = "qcache"`. -/
theorem selectSteps_rule_table_witness :
    selectSteps T0 (some "autorecon2-cp") none (some "rh") =
      T0.autorecon2_volonly ++ T0.autorecon2_rh
    ∧ selectSteps T0 (some "qcache") none (some "rh") = T0.steps := by
  have h := selectSteps_rule_table T0 none (some "rh") "rh" "autorecon2-cp"
    "qcache" (by decide) (by decide) (by decide) (by decide) (by decide)
    (by decide) (by decide)
  exact ⟨by simpa using h.2.2.2.2.1, h.2.2.2.2.2.2.2⟩

/-- C4: with no directive and an explicit step list, the resolved sequence
is the master list filtered to the named steps: it is a sublist of the
master list (order preserved) and, when every requested name occurs in the
master list, its set of step names equals the set of requested names. -/
theorem selectSteps_explicit_steps (T : StepTables) (names : List String)
    (h : Option String)
    (hvalid : ∀ n ∈ names, ∃ s ∈ T.steps, s.name = n) :
    selectSteps T none (some names) h =
      T.steps.filter (fun s => names.contains s.name)
    ∧ List.Sublist (selectSteps T none (some names) h) T.steps
    ∧ ((selectSteps T none (some names) h).map Step.name).toFinset =
        names.toFinset := by
  refine ⟨rfl, List.filter_sublist T.steps, ?_⟩
  ext n
  simp only [List.mem_toFinset, List.mem_map]
  constructor
  · rintro ⟨s, hsmem, rfl⟩
    have hf := (List.mem_filter.mp hsmem).2
    unfold List.contains at hf
    exact List.elem_iff.mp hf
  · intro hn
    obtain ⟨s, hsmem, hname⟩ := hvalid n hn
    refine ⟨s, List.mem_filter.mpr ⟨hsmem, ?_⟩, hname⟩
    unfold List.contains
    exact List.elem_iff.mpr (hname ▸ hn)

/-- Witness for C4 with the concrete master list and request
`["talairach"]`. -/
theorem selectSteps_explicit_steps_witness :
    selectSteps T0 none (some ["talairach"]) none =
      T0.steps.filter (fun s => ["talairach"].contains s.name)
    ∧ List.Sublist (selectSteps T0 none (some ["talairach"]) none) T0.steps
    ∧ ((selectSteps T0 none (some ["talairach"]) none).map Step.name).toFinset =
        (["talairach"] : List String).toFinset :=
  selectSteps_explicit_steps T0 ["talairach"] none (by decide)

/-- C5: flags already present in the base command take precedence over the
freshness check, `-no<step>` before `-<step>`: a step whose `-no<step>` is
present is processed as if absent; a step whose `-<step>` is present adds
no flag but forces `no_run` to false; only when neither is present does
the freshness check decide the outcome. -/
theorem resume_flag_precedence (env : LoopEnv) (pre post : List Step)
    (s : Step) :
    (strContains env.cmd (noflagOf s) = true →
      processSteps env (pre ++ s :: post) = processSteps env (pre ++ post))
    ∧ (strContains env.cmd (noflagOf s) = false →
       strContains env.cmd (flagOf s) = true →
        (processSteps env (pre ++ s :: post)).1 = false
        ∧ (processSteps env (pre ++ s :: post)).2 =
            (processSteps env (pre ++ post)).2)
    ∧ (strContains env.cmd (noflagOf s) = false →
       strContains env.cmd (flagOf s) = false →
        processSteps env (pre ++ [s]) =
          ((processSteps env pre).1 && stepFresh env s,
           (processSteps env pre).2 ++
             (if stepFresh env s then [noflagOf s]
              else if env.stepsDefined then [flagOf s] else []))) := by
  refine ⟨processSteps_skip_of_noflag env pre post s, ?_, ?_⟩
  · exact processSteps_forced_of_flag env pre post s
  · intro hno hfl
    rw [processSteps_eq, processSteps_eq]
    have hnr : stepNoRun env s = stepFresh env s := by
      simp [stepNoRun, hno, hfl]
    have hd : stepDecision env s =
        if stepFresh env s then some (noflagOf s)
        else if env.stepsDefined then some (flagOf s) else none := by
      simp [stepDecision, hno, hfl]
    by_cases hf : stepFresh env s <;> by_cases hsd : env.stepsDefined <;>
      simp [List.all_append, List.filterMap_append, List.filterMap_cons,
        hnr, hd, hf, hsd]

/-- Witness for C5: a present `-notalairach` makes the loop ignore the
step, and with no flags present the fresh step appends `-notalairach`. -/
theorem resume_flag_precedence_witness :
    processSteps envA ([] ++ sTal :: []) = processSteps envA ([] ++ [])
    ∧ processSteps envB ([] ++ [sTal]) =
        ((processSteps envB []).1 && stepFresh envB sTal,
         (processSteps envB []).2 ++
           (if stepFresh envB sTal then [noflagOf sTal]
            else if envB.stepsDefined then [flagOf sTal] else [])) :=
  ⟨(resume_flag_precedence envA [] [] sTal).1 (by decide),
   (resume_flag_precedence envB [] [] sTal).2.2 (by decide) (by decide)⟩

/-- C6: with `write_probs` set, the output listing maps
`label_probabilities` to exactly the three absolute paths
`<prefix>000.mgz`, `<prefix>001.mgz`, `<prefix>002.mgz`, in that order;
with it unset the listing is the base listing unchanged. -/
theorem calabel_probabilities (base : String → Option OutValue)
    (cwd : String) (pfx : String) :
    listOutputs base cwd (some pfx) "label_probabilities"
      = some (OutValue.strs
          [abspath cwd (pfx ++ "000.mgz"),
           abspath cwd (pfx ++ "001.mgz"),
           abspath cwd (pfx ++ "002.mgz")])
    ∧ listOutputs base cwd none = base := by
  refine ⟨?_, rfl⟩
  show (if ("label_probabilities" : String) = "label_probabilities" then
      some (OutValue.strs ((List.range 3).map
        (fun i => abspath cwd (pfx ++ format03 i ++ ".mgz"))))
    else base "label_probabilities") = _
  rw [if_pos rfl]
  have h0 : pfx ++ format03 0 ++ ".mgz" = pfx ++ "000.mgz" := by
    rw [String.append_assoc]
    exact congrArg (fun x => pfx ++ x) (by decide)
  have h1 : pfx ++ format03 1 ++ ".mgz" = pfx ++ "001.mgz" := by
    rw [String.append_assoc]
    exact congrArg (fun x => pfx ++ x) (by decide)
  have h2 : pfx ++ format03 2 ++ ".mgz" = pfx ++ "002.mgz" := by
    rw [String.append_assoc]
    exact congrArg (fun x => pfx ++ x) (by decide)
  simp only [List.range_succ, List.range_zero, List.nil_append,
    List.map_cons, List.map_nil, List.map_append, h0, h1, h2]
  rfl

/-- C10: with `write_probs` set, every key other than
`label_probabilities` is returned exactly as the base listing gives it. -/
theorem calabel_frame (base : String → Option OutValue) (cwd : String)
    (pfx : String) (k : String) (hk : k ≠ "label_probabilities") :
    listOutputs base cwd (some pfx) k = base k := by
  show (if k = "label_probabilities" then _ else base k) = base k
  rw [if_neg hk]

/-- Witness for C10 at a concrete listing and the `out_file` key. -/
theorem calabel_frame_witness :
    listOutputs base0 "/wd" (some "posterior") "out_file" = base0 "out_file" :=
  calabel_frame base0 "/wd" "posterior" "out_file" (by decide)


/-- Counterexample for C7 as stated: in the `autorecon1`, all-outputs-
missing scenario the placeholder is not taken, but the final command does
NOT equal the base command — the source appends `" " + " ".join(flags)`
even when `flags` is empty, leaving a trailing space. -/
theorem autorecon1_missing_outputs_cex :
    i0.directive = some "autorecon1"
    ∧ (∀ s ∈ i0.tables.autorecon1,
        strContains i0.baseCmd (noflagOf s) = false
        ∧ strContains i0.baseCmd (flagOf s) = false)
    ∧ (∀ s ∈ i0.tables.autorecon1, ∀ o ∈ s.outfiles,
        i0.fs (joinPath (envOf i0).subjDir o) = none)
    ∧ cmdline i0 ≠ "echo recon-all: nothing to do"
    ∧ cmdline i0 ≠ i0.baseCmd := by decide

/-- C7 (amended): with directive `autorecon1`, no step flags in the base
command, and every step having some (all) output files missing, every
step is marked as needing a run (`no_run` ends false), the placeholder is
not taken, and the final command is the base command with no flags
appended — followed by the single trailing space the source's join always
adds. -/
theorem autorecon1_missing_outputs_runs_all (i : ReconAllInputs)
    (hres : i.resuming = true)
    (hdir : i.directive = some "autorecon1")
    (hst : i.steps = none)
    (hne : i.tables.autorecon1 ≠ [])
    (hflags : ∀ s ∈ i.tables.autorecon1,
      strContains i.baseCmd (noflagOf s) = false
      ∧ strContains i.baseCmd (flagOf s) = false)
    (houts : ∀ s ∈ i.tables.autorecon1,
      s.outfiles ≠ []
      ∧ ∀ o ∈ s.outfiles, i.fs (joinPath (envOf i).subjDir o) = none) :
    cmdline i = i.baseCmd ++ " "
    ∧ (processSteps (envOf i) (resolvedSteps i)).1 = false := by
  have hsteps : resolvedSteps i = i.tables.autorecon1 := by
    rw [resolvedSteps, hdir]
    exact rfl
  have hfresh : ∀ s ∈ i.tables.autorecon1, stepFresh (envOf i) s = false := by
    intro s hsmem
    obtain ⟨hone, hmiss⟩ := houts s hsmem
    obtain ⟨o, ho⟩ := List.exists_mem_of_ne_nil s.outfiles hone
    have htgt : (s.outfiles.map (joinPath (envOf i).subjDir)).all
        (fun t => ((envOf i).fs t).isSome) = false := by
      rw [List.all_eq_false]
      refine ⟨joinPath (envOf i).subjDir o, List.mem_map_of_mem _ ho, ?_⟩
      have hm : i.fs (joinPath (envOf i).subjDir o) = none := hmiss o ho
      have hm' : (envOf i).fs (joinPath (envOf i).subjDir o) = none := hm
      simp [hm']
    rw [stepFresh, check_depends, htgt, Bool.false_and]
  have hdec : ∀ s ∈ resolvedSteps i, stepDecision (envOf i) s = none := by
    rw [hsteps]
    intro s hsmem
    obtain ⟨hnof, hfla⟩ := hflags s hsmem
    have hnof' : strContains (envOf i).cmd (noflagOf s) = false := hnof
    have hfla' : strContains (envOf i).cmd (flagOf s) = false := hfla
    have hsd : (envOf i).stepsDefined = false := by
      show i.steps.isSome = false
      rw [hst]
      rfl
    simp [stepDecision, hnof', hfla', hfresh s hsmem, hsd]
  have hnorun : (processSteps (envOf i) (resolvedSteps i)).1 = false := by
    rw [processSteps_eq]
    rw [List.all_eq_false]
    obtain ⟨s, hsmem⟩ := List.exists_mem_of_ne_nil i.tables.autorecon1 hne
    have hsmem' : s ∈ resolvedSteps i := by rw [hsteps]; exact hsmem
    refine ⟨s, hsmem', ?_⟩
    obtain ⟨hnof, hfla⟩ := hflags s hsmem
    have hnof' : strContains (envOf i).cmd (noflagOf s) = false := hnof
    have hfla' : strContains (envOf i).cmd (flagOf s) = false := hfla
    simp [stepNoRun, hnof', hfla', hfresh s hsmem]
  have hflagsnil : (processSteps (envOf i) (resolvedSteps i)).2 = [] := by
    rw [processSteps_eq]
    exact List.filterMap_eq_nil_iff.mpr hdec
  refine ⟨?_, hnorun⟩
  rw [cmdline]
  rw [hres]
  simp only [Bool.false_eq_true, if_false]
  rw [hnorun, hflagsnil]
  rw [show String.intercalate " " ([] : List String) = "" from rfl]
  rw [String.append_empty]
  simp

/-- Witness for the amended C7 at the concrete scenario inputs. -/
theorem autorecon1_missing_outputs_runs_all_witness :
    cmdline i0 = i0.baseCmd ++ " "
    ∧ (processSteps (envOf i0) (resolvedSteps i0)).1 = false :=
  autorecon1_missing_outputs_runs_all i0 (by decide) (by decide) (by decide)
    (by decide) (by decide) (by decide)

/-- C8: the "already present" test is plain substring containment over the
whole command string: whenever the characters of `-no<step>` (resp.
`-<step>`) occur anywhere in the command — also inside a path or longer
token — the skip (resp. already-forced) branch is taken. -/
theorem flag_match_is_substring (env : LoopEnv) (pre post : List Step)
    (s : Step) (a b : String) :
    (env.cmd = a ++ noflagOf s ++ b →
      processSteps env (pre ++ s :: post) = processSteps env (pre ++ post))
    ∧ (env.cmd = a ++ flagOf s ++ b →
       strContains env.cmd (noflagOf s) = false →
        (processSteps env (pre ++ s :: post)).1 = false
        ∧ (processSteps env (pre ++ s :: post)).2 =
            (processSteps env (pre ++ post)).2) := by
  constructor
  · intro hdec
    refine processSteps_skip_of_noflag env pre post s ?_
    rw [hdec]
    exact strContains_of_decomp a (noflagOf s) b
  · intro hdec hno
    refine processSteps_forced_of_flag env pre post s hno ?_
    rw [hdec]
    exact strContains_of_decomp a (flagOf s) b

/-- Witness for C8: `-notalairach` occurring only inside an input file
path still makes the loop skip the `talairach` step. -/
theorem flag_match_is_substring_witness :
    processSteps envC [sTal] = processSteps envC [] :=
  (flag_match_is_substring envC [] [] sTal
    "recon-all -i /data/sub" "/T1.nii -all").1 (by decide)

/-- C9: the `autorecon-hemi` branch reads `hemi` without a definedness
check: it selects the left-hemisphere table exactly when `hemi = "lh"`
and the right-hemisphere table in every other case, including `hemi`
undefined — unlike the `autorecon2*` branch, which falls back to the full
autorecon2 table when `hemi` is undefined. -/
theorem autorecon_hemi_undefined_hemi (T : StepTables)
    (st : Option (List String)) (h : Option String) :
    selectSteps T (some "autorecon-hemi") st h =
      (if h = some "lh" then T.autorecon_lh else T.autorecon_rh)
    ∧ selectSteps T (some "autorecon-hemi") st none = T.autorecon_rh
    ∧ selectSteps T (some "autorecon2") st none = T.autorecon2 :=
  ⟨rfl, rfl, rfl⟩

end Smriprep
